import Mathlib

/-!
Verification of the RISC-V ISA-string parsing and hardware-capability
aggregation routine (`arch/riscv/kernel/cpufeature.c`).

The descriptor string is modelled as a `List Char` (a NUL-terminated C
string holds no NUL, so reading at or past the end of the list yields the
NUL character, see `hd0`).  The per-unit scanning loop, the per-token
parser with its forward and backward version scans, the intersection-style
fold across units, the float-without-double consistency rule, the
presenter and the availability query are all embedded as executable
functions below.  The machine-width prefix handling is modelled for the
64-bit configuration (`CONFIG_64BIT`), matching the `rv64` branch of the
source.
-/

/-- `UINT_MAX` on the C side: `2^32 - 1`. -/
def UINT_MAX : Nat := 4294967295

/-- C `isdigit` in the default locale: the characters `0` to `9`. -/
def isDigitC (c : Char) : Bool := 48 ≤ c.toNat && c.toNat ≤ 57

/-- C `islower` in the default locale: the characters `a` to `z`. -/
def isLowerC (c : Char) : Bool := 97 ≤ c.toNat && c.toNat ≤ 122

/-- Reading `*p` on a NUL-terminated string: the head of the remaining
list, or NUL when the cursor sits at the end. -/
def hd0 (l : List Char) : Char := l.headD (Char.ofNat 0)

/-- Accumulation loop of `_decimal_part_to_uint`: consume the maximal
digit prefix, failing (`none`, C `-ERANGE`) whenever the next
accumulation step would exceed `UINT_MAX`; the overflow test
`value > (UINT_MAX - d) / 10` is taken verbatim from the source. -/
def decLoop : List Char → Nat → Option Nat
  | [], value => some value
  | c :: rest, value =>
    if isDigitC c then
      let d := c.toNat - 48
      if value > (UINT_MAX - d) / 10 then none
      else decLoop rest (value * 10 + d)
    else some value

/-- `_decimal_part_to_uint`: fails (`none`, C `-EINVAL`) when the cursor
is not on a digit, otherwise parses the maximal digit run with overflow
detection. -/
def decimal_part_to_uint (l : List Char) : Option Nat :=
  match l with
  | [] => none
  | c :: _ => if isDigitC c then decLoop l 0 else none

/-- One parsed extension token: its name span, version numbers and the
two independent error flags of the source (`ext_err`, `ext_err_ver`).
`ext_major = UINT_MAX` is the unversioned default sentinel. -/
structure Token where
  name : List Char
  ext_major : Nat
  ext_minor : Nat
  ext_long : Bool
  ext_err : Bool
  ext_err_ver : Bool
deriving Repr, DecidableEq

/-- The post-token cursor adjustment `if (*isa != '_') --isa;` followed by
the loop increment `++isa`: an explicit delimiter is consumed, any other
character is left to be reinterpreted as the next token's start. -/
def delimAdjust (l : List Char) : List Char :=
  match l with
  | [] => []
  | a :: rest => if a = '_' then rest else a :: rest

/-- Version parsing of a namespaced (`s`/`x`/`z`) token, performed
backwards over the consumed run exactly as in the source: the trailing
digit run is tentatively the major version; if it is preceded by `p`
itself preceded by a digit, the run before `p` becomes the major version
and the trailing run the minor version.  On a parse failure the C
variable keeps its previous value, which is reproduced here.  The reads
`ext_end[0]` and `ext_end[-1]` default to NUL when the backward scan
stopped at the token letter; the letter is `s`, `x` or `z`, so the
short-circuit comparison with `p` gives the same outcome as the source. -/
def longToken (c : Char) (run : List Char) : Token :=
  let runErr := run.any (fun a => !(isLowerC a || isDigitC a))
  if runErr then ⟨c :: run, UINT_MAX, 0, true, true, false⟩
  else
    let rev := run.reverse
    let d1 := rev.takeWhile isDigitC
    if d1 = [] then ⟨c :: run, UINT_MAX, 0, true, false, false⟩
    else
      let rest1 := rev.dropWhile isDigitC
      let vpair := (hd0 rest1 == 'p') && isDigitC (hd0 rest1.tail)
      let pm :=
        match decimal_part_to_uint d1.reverse with
        | some v => (v, false)
        | none => (UINT_MAX, true)
      if vpair = false then
        ⟨c :: rest1.reverse, pm.1, 0, true, false, pm.2⟩
      else
        let rest3 := rest1.tail.dropWhile isDigitC
        let d2 := rest1.tail.takeWhile isDigitC
        let pj :=
          match decimal_part_to_uint d2.reverse with
          | some v => (v, v == UINT_MAX)
          | none => (pm.1, true)
        ⟨c :: rest3.reverse, pj.1, pm.1, true, false, pm.2 || pj.2⟩

/-- The `s`/`x`/`z` arm of the token switch: consume the maximal
lowercase-or-digit run up to a delimiter or the end of the string, then
parse the version backwards; the cursor always ends at the delimiter
position. -/
def scanLong (c : Char) (t : List Char) : Token × List Char :=
  (longToken c (t.takeWhile (fun a => a != '_')),
   delimAdjust (t.dropWhile (fun a => a != '_')))

/-- The default (single-letter) arm of the token switch: reject a
non-lowercase start, then scan forwards for an optional
`major` / `p` / `minor` version suffix.  On a parse failure the C
variable keeps its previous value (`UINT_MAX` for the major version, `0`
for the minor), which is reproduced here; the source checks
`ext_major == UINT_MAX` after the major parse, covering both the
overflow and the sentinel-collision case. -/
def scanShort (c : Char) (t : List Char) : Token × List Char :=
  if isLowerC c = false then
    (⟨[c], UINT_MAX, 0, false, true, false⟩, delimAdjust t)
  else if isDigitC (hd0 t) = false then
    (⟨[c], UINT_MAX, 0, false, false, false⟩, delimAdjust t)
  else
    let pm :=
      match decimal_part_to_uint t with
      | some v => (v, v == UINT_MAX)
      | none => (UINT_MAX, true)
    let t1 := t.dropWhile isDigitC
    if (hd0 t1 == 'p') = false then
      (⟨[c], pm.1, 0, false, false, pm.2⟩, delimAdjust t1)
    else if isDigitC (hd0 t1.tail) = false then
      (⟨[c], pm.1, 0, false, false, pm.2⟩, delimAdjust t1)
    else
      let pn :=
        match decimal_part_to_uint t1.tail with
        | some v => (v, false)
        | none => (0, true)
      let t2 := t1.tail.dropWhile isDigitC
      (⟨[c], pm.1, pn.1, false, false, pm.2 || pn.2⟩, delimAdjust t2)

/-- One iteration of the per-unit token loop: classify the character at
the cursor and return the parsed token together with the remainder of
the string on which scanning resumes. -/
def scanToken : List Char → Token × List Char
  | [] => (⟨[], UINT_MAX, 0, false, true, false⟩, [])
  | c :: t =>
    if c == 's' || c == 'x' || c == 'z' then scanLong c t else scanShort c t

/-- COMPAT HWCAP bit of the legacy base extension A.  Modelled from the
spec: the header defining the `COMPAT_HWCAP_ISA_*` constants is not part
of the sources; the spec describes a mask over {I, M, A, F, D, C} with
disjoint bits, and the presenter renders mask bit `i` as letter
`'a' + i`, fixing each value as `2 ^ (letter - 'A')`. -/
def COMPAT_HWCAP_ISA_A : Nat := 2 ^ 0

/-- COMPAT HWCAP bit of the legacy base extension C (see
`COMPAT_HWCAP_ISA_A` for the modelling note). -/
def COMPAT_HWCAP_ISA_C : Nat := 2 ^ 2

/-- COMPAT HWCAP bit of the legacy base extension D (see
`COMPAT_HWCAP_ISA_A` for the modelling note). -/
def COMPAT_HWCAP_ISA_D : Nat := 2 ^ 3

/-- COMPAT HWCAP bit of the legacy base extension F (see
`COMPAT_HWCAP_ISA_A` for the modelling note). -/
def COMPAT_HWCAP_ISA_F : Nat := 2 ^ 5

/-- COMPAT HWCAP bit of the legacy base extension I (see
`COMPAT_HWCAP_ISA_A` for the modelling note). -/
def COMPAT_HWCAP_ISA_I : Nat := 2 ^ 8

/-- COMPAT HWCAP bit of the legacy base extension M (see
`COMPAT_HWCAP_ISA_A` for the modelling note). -/
def COMPAT_HWCAP_ISA_M : Nat := 2 ^ 12

/-- The static `isa2hwcap` table: the six legacy base letters, in both
cases, map to their capability-mask bits; every other index holds 0. -/
def isa2hwcap (c : Char) : Nat :=
  if c = 'i' ∨ c = 'I' then COMPAT_HWCAP_ISA_I
  else if c = 'm' ∨ c = 'M' then COMPAT_HWCAP_ISA_M
  else if c = 'a' ∨ c = 'A' then COMPAT_HWCAP_ISA_A
  else if c = 'f' ∨ c = 'F' then COMPAT_HWCAP_ISA_F
  else if c = 'd' ∨ c = 'D' then COMPAT_HWCAP_ISA_D
  else if c = 'c' ∨ c = 'C' then COMPAT_HWCAP_ISA_C
  else 0

/-- The fixed watch-list of extensions of interest, in the order the
source tests them: `h`, `zba`, `zihintpause`, `zksed`. -/
def watchList : List (List Char) :=
  [['h'], ['z', 'b', 'a'],
   ['z', 'i', 'h', 'i', 'n', 't', 'p', 'a', 'u', 's', 'e'],
   ['z', 'k', 's', 'e', 'd']]

/-- The diagnostics a token's canonical name triggers: one `pr_info`
line, identified here by the matched name, for every watch-list entry
the name equals (the four `MATCH_EXT` tests of the source). -/
def watchHits (name : List Char) : List (List Char) :=
  watchList.filter (fun w => w == name)

/-- The per-unit token loop of `riscv_fill_hwcap`, with explicit fuel to
make the recursion structural; `scanUnitGo_fuel` below shows that any
fuel of at least the string length, in particular the `l.length` used by
`scanUnit`, gives the loop's fixpoint, so the fuel-exhausted arm is
unreachable.  A token flagged `ext_err` is skipped (`continue`);
otherwise its mapped capability bit is ORed into the unit's mask, a
single-letter token sets bit `letter - 'a'` of the unit's ISA bitmap,
and the watch-list diagnostics fire.  Note that `ext_err_ver` is not
consulted. -/
def scanUnitGo : Nat → List Char → Nat → Nat → List (List Char) →
    Nat × Nat × List (List Char)
  | _, [], hw, ib, dg => (hw, ib, dg)
  | 0, _ :: _, hw, ib, dg => (hw, ib, dg)
  | fuel + 1, c :: t, hw, ib, dg =>
    let pr := scanToken (c :: t)
    if pr.1.ext_err then scanUnitGo fuel pr.2 hw ib dg
    else
      scanUnitGo fuel pr.2
        (hw ||| isa2hwcap (hd0 pr.1.name))
        (ib ||| (if pr.1.ext_long then 0
                 else 2 ^ ((hd0 pr.1.name).toNat - 97)))
        (dg ++ watchHits pr.1.name)

/-- One unit's parse run: the unit's capability mask, ISA bitmap and the
list of emitted watch-list diagnostics. -/
def scanUnit (l : List Char) : Nat × Nat × List (List Char) :=
  scanUnitGo l.length l 0 0 []

/-- The sequence of tokens recognised along one unit's parse run, under
the same fuel discipline as `scanUnitGo`. -/
def tokensGo : Nat → List Char → List Token
  | _, [] => []
  | 0, _ :: _ => []
  | fuel + 1, c :: t =>
    let pr := scanToken (c :: t)
    pr.1 :: tokensGo fuel pr.2

/-- All tokens of one descriptor string. -/
def tokenList (l : List Char) : List Token := tokensGo l.length l

/-- Stripping of the machine-width prefix for the 64-bit configuration:
`strncmp(isa, "rv64", 4)` skips the first four characters when they are
exactly `rv64`. -/
def stripWidth (l : List Char) : List Char :=
  if l.take 4 = ['r', 'v', '6', '4'] then l.drop 4 else l

/-- One processing unit as seen by `riscv_fill_hwcap`: the usability
flag (`riscv_of_processor_hartid(node) >= 0`) and the optional
`riscv,isa` descriptor string. -/
structure UnitIn where
  ok : Bool
  isa : Option (List Char)
deriving Repr, DecidableEq

/-- The per-unit result folded by the hart loop: `none` when the unit is
skipped (not usable, or no descriptor string), otherwise the pair of the
unit's capability mask and ISA bitmap parsed from its stripped
descriptor. -/
def perUnit (u : UnitIn) : Option (Nat × Nat) :=
  if u.ok = false then none
  else
    match u.isa with
    | none => none
    | some s =>
      let r := scanUnit (stripWidth s)
      some (r.1, r.2.1)

/-- One aggregation step of the hart loop: `if (x) x &= this; else
x = this;` — a zero running value is replaced by the unit's value,
a nonzero one is intersected with it. -/
def foldStep (r u : Nat) : Nat := if r = 0 then u else r &&& u

/-- The hart loop of `riscv_fill_hwcap`: fold every contributing unit's
mask and bitmap into the running `elf_hwcap` and `riscv_isa[0]`, both
starting at zero. -/
def harts (units : List UnitIn) : Nat × Nat :=
  units.foldl
    (fun acc u =>
      match perUnit u with
      | none => acc
      | some hi => (foldStep acc.1 hi.1, foldStep acc.2 hi.2))
    (0, 0)

/-- The contributing units' parsed results, in unit order. -/
def contribs (units : List UnitIn) : List (Nat × Nat) :=
  units.filterMap perUnit

/-- The 64-bit `unsigned long` complement `~COMPAT_HWCAP_ISA_F` used to
clear the single-precision float bit. -/
def NOT_HWCAP_F : Nat := 2 ^ 64 - 1 - COMPAT_HWCAP_ISA_F

/-- The frozen state produced by `riscv_fill_hwcap`: the published
capability mask, the host ISA bitmap word, the floating-point static-key
gate, and whether the float-without-double diagnostic fired. -/
structure HwcapResult where
  elf_hwcap : Nat
  riscv_isa : Nat
  fpuGate : Bool
  fWithoutD : Bool
deriving Repr, DecidableEq

/-- `riscv_fill_hwcap`: fold all units, apply the float-without-double
consistency rule, and enable the FPU gate when a float bit survives
(`CONFIG_FPU` enabled). -/
def riscv_fill_hwcap (units : List UnitIn) : HwcapResult :=
  let a := harts units
  let fd := (a.1 &&& COMPAT_HWCAP_ISA_F != 0) && (a.1 &&& COMPAT_HWCAP_ISA_D == 0)
  let hw := if fd then a.1 &&& NOT_HWCAP_F else a.1
  ⟨hw, a.2, hw &&& (COMPAT_HWCAP_ISA_F ||| COMPAT_HWCAP_ISA_D) != 0, fd⟩

/-- The boot-diagnostic presenter: the 26 single-letter slots of a
bitmap rendered as the ordered string of lowercase letters whose bit is
set (`NUM_ALPHA_EXTS = 26`). -/
def printStr (bitmap : Nat) : List Char :=
  ((List.range 26).filter (fun i => bitmap.testBit i)).map
    (fun i => Char.ofNat (97 + i))

/-- Size of the host ISA bitmap.  Modelled from the spec: the header
defining `RISCV_ISA_EXT_MAX` is not part of the sources; the spec
describes a fixed-capacity bit set whose low word carries the 26
single-letter slots plus an extended registry, one 64-bit word here. -/
def RISCV_ISA_EXT_MAX : Nat := 64

/-- `__riscv_isa_extension_available`: consult the given bitmap, or the
frozen global one when none is given; an out-of-range bit index returns
false, otherwise the queried bit is tested. -/
def riscv_isa_extension_available (isa_bitmap : Option Nat) (global_isa : Nat)
    (bit : Nat) : Bool :=
  let bmap := isa_bitmap.getD global_isa
  if RISCV_ISA_EXT_MAX ≤ bit then false else bmap.testBit bit

example : (scanToken "zba1p0".toList).1.ext_major = 1 := by decide
example : (scanToken "zba1p0".toList).1.ext_minor = 0 := by decide
example : (scanToken "zba1p0".toList).1.name = ['z', 'b', 'a'] := by decide
example : (scanToken "zba1".toList).1.ext_major = 1 := by decide
example : (scanToken "zba".toList).1.ext_major = UINT_MAX := by decide
example : (scanToken "m4294967296".toList).1.ext_err_ver = true := by decide
example : (scanToken "m4294967296".toList).1.ext_err = false := by decide
example : (scanToken "i1p2".toList).1.ext_minor = 2 := by decide
example : (scanToken "zFOO_zba".toList).1.ext_err = true := by decide
example : (scanToken "zFOO_zba".toList).2 = "zba".toList := by decide
example : (scanUnit "imac".toList).1 = 2 ^ 8 + 2 ^ 12 + 2 ^ 0 + 2 ^ 2 := by decide
example : (scanUnit "imac".toList).2.1 = 2 ^ 8 + 2 ^ 12 + 2 ^ 0 + 2 ^ 2 := by decide
example : (scanUnit "zba_zba".toList).2.2 = [['z','b','a'], ['z','b','a']] := by decide
example : (scanUnit "m4294967296".toList).1 = 2 ^ 12 := by decide
example : (scanUnit ['I']).1 = 0 := by decide
example : (scanUnit "i1p2".toList).2.1 = 2 ^ 8 := by decide
example : (scanUnit "i1_p2".toList).2.1 = 2 ^ 8 + 2 ^ 15 := by decide
example :
    riscv_fill_hwcap [⟨true, some "rv64imac".toList⟩] =
      ⟨4357, 4357, false, false⟩ := by decide
example : printStr 4357 = ['a', 'c', 'i', 'm'] := by decide
example :
    (riscv_fill_hwcap [⟨true, some "rv64imafc".toList⟩]).elf_hwcap.testBit 5 =
      false := by decide
example :
    (riscv_fill_hwcap [⟨true, some "rv64imafdc".toList⟩]).fpuGate = true := by
  decide
example :
    (riscv_fill_hwcap [⟨true, some ['i']⟩, ⟨true, some ['b']⟩]).elf_hwcap =
      0 := by decide
example :
    (riscv_fill_hwcap [⟨true, some ['b']⟩, ⟨true, some ['i']⟩]).elf_hwcap =
      256 := by decide
example : (scanUnit "rv64imac".toList).2.1 ≠ 4357 := by decide

/-! ## Helper lemmas -/

theorem delimAdjust_suffix (l : List Char) : delimAdjust l <:+ l := by
  cases l with
  | nil => exact List.suffix_rfl
  | cons a rest =>
    by_cases h : a = '_'
    · simp [delimAdjust, h]
    · simp [delimAdjust, h]

theorem scanLong_rest_suffix (c : Char) (t : List Char) :
    (scanLong c t).2 <:+ t :=
  (delimAdjust_suffix _).trans (List.dropWhile_suffix _)

theorem scanShort_rest_suffix (c : Char) (t : List Char) :
    (scanShort c t).2 <:+ t := by
  unfold scanShort
  split
  · exact delimAdjust_suffix t
  · split
    · exact delimAdjust_suffix t
    · dsimp only
      split
      · exact (delimAdjust_suffix _).trans (List.dropWhile_suffix _)
      · split
        · exact (delimAdjust_suffix _).trans (List.dropWhile_suffix _)
        · exact (delimAdjust_suffix _).trans
            (((List.dropWhile_suffix _).trans (List.tail_suffix _)).trans
              (List.dropWhile_suffix _))

theorem scanToken_rest_suffix (c : Char) (t : List Char) :
    (scanToken (c :: t)).2 <:+ t := by
  show (if c == 's' || c == 'x' || c == 'z' then
          scanLong c t else scanShort c t).2 <:+ t
  split
  · exact scanLong_rest_suffix c t
  · exact scanShort_rest_suffix c t

theorem scanToken_rest_le (c : Char) (t : List Char) :
    ((scanToken (c :: t)).2).length ≤ t.length :=
  (scanToken_rest_suffix c t).length_le

theorem scanToken_rest_lt (c : Char) (t : List Char) :
    ((scanToken (c :: t)).2).length < (c :: t).length :=
  Nat.lt_of_le_of_lt (scanToken_rest_le c t) (Nat.lt_succ_self _)

theorem longToken_name_head (c : Char) (run : List Char) :
    hd0 (longToken c run).name = c := by
  unfold longToken
  dsimp only
  split
  · rfl
  · split
    · rfl
    · split
      · rfl
      · rfl

theorem scanShort_name_head (c : Char) (t : List Char) :
    hd0 (scanShort c t).1.name = c := by
  unfold scanShort
  split
  · rfl
  · split
    · rfl
    · dsimp only
      split
      · rfl
      · split
        · rfl
        · rfl

theorem hd0_scanToken_name (c : Char) (t : List Char) :
    hd0 (scanToken (c :: t)).1.name = c := by
  show hd0 (if c == 's' || c == 'x' || c == 'z' then
              scanLong c t else scanShort c t).1.name = c
  split
  · exact longToken_name_head c _
  · exact scanShort_name_head c t

theorem scanUnitGo_fuel :
    ∀ (f : Nat) (l : List Char) (hw ib : Nat) (dg : List (List Char)),
      l.length ≤ f →
      scanUnitGo f l hw ib dg = scanUnitGo l.length l hw ib dg := by
  intro f
  induction f using Nat.strong_induction_on with
  | _ f IH =>
    intro l hw ib dg hle
    match f, l with
    | _, [] => simp [scanUnitGo]
    | 0, c :: t => simp at hle
    | f + 1, c :: t =>
      have hlen : t.length ≤ f := by simpa using hle
      have hrest : ((scanToken (c :: t)).2).length ≤ t.length :=
        scanToken_rest_le c t
      show (if (scanToken (c :: t)).1.ext_err then _ else _) =
        scanUnitGo (t.length + 1) (c :: t) hw ib dg
      show _ = (if (scanToken (c :: t)).1.ext_err then _ else _)
      split
      · rw [IH f (Nat.lt_succ_self f) _ _ _ _ (hrest.trans hlen),
          IH t.length (Nat.lt_succ_of_le hlen) _ _ _ _ hrest]
      · rw [IH f (Nat.lt_succ_self f) _ _ _ _ (hrest.trans hlen),
          IH t.length (Nat.lt_succ_of_le hlen) _ _ _ _ hrest]

theorem scanUnitGo_acc (f : Nat) :
    ∀ (l : List Char) (hw ib : Nat) (dg : List (List Char)),
      scanUnitGo f l hw ib dg =
        (hw ||| (scanUnitGo f l 0 0 []).1,
         ib ||| (scanUnitGo f l 0 0 []).2.1,
         dg ++ (scanUnitGo f l 0 0 []).2.2) := by
  induction f with
  | zero =>
    intro l hw ib dg
    cases l <;> simp [scanUnitGo]
  | succ f IH =>
    intro l hw ib dg
    cases l with
    | nil => simp [scanUnitGo]
    | cons c t =>
      show (if (scanToken (c :: t)).1.ext_err then _ else _) = _
      by_cases he : (scanToken (c :: t)).1.ext_err
      · simp only [scanUnitGo, he, if_pos, ite_true]
        exact IH _ hw ib dg
      · simp only [scanUnitGo, he, ite_false]
        rw [IH ((scanToken (c :: t)).2)
            (hw ||| isa2hwcap (hd0 (scanToken (c :: t)).1.name))
            (ib ||| (if (scanToken (c :: t)).1.ext_long then 0
                     else 2 ^ ((hd0 (scanToken (c :: t)).1.name).toNat - 97)))
            (dg ++ watchHits (scanToken (c :: t)).1.name),
          IH ((scanToken (c :: t)).2)
            (0 ||| isa2hwcap (hd0 (scanToken (c :: t)).1.name))
            (0 ||| (if (scanToken (c :: t)).1.ext_long then 0
                    else 2 ^ ((hd0 (scanToken (c :: t)).1.name).toNat - 97)))
            ([] ++ watchHits (scanToken (c :: t)).1.name)]
        simp [Nat.or_assoc, List.append_assoc]

theorem scanUnit_cons (c : Char) (t : List Char) :
    scanUnit (c :: t) =
      if (scanToken (c :: t)).1.ext_err then scanUnit (scanToken (c :: t)).2
      else
        (isa2hwcap c ||| (scanUnit (scanToken (c :: t)).2).1,
         (if (scanToken (c :: t)).1.ext_long then 0
          else 2 ^ (c.toNat - 97)) ||| (scanUnit (scanToken (c :: t)).2).2.1,
         watchHits (scanToken (c :: t)).1.name ++
           (scanUnit (scanToken (c :: t)).2).2.2) := by
  have hrest : ((scanToken (c :: t)).2).length ≤ t.length := scanToken_rest_le c t
  have base : scanUnit (c :: t) =
      (if (scanToken (c :: t)).1.ext_err then
        scanUnitGo t.length (scanToken (c :: t)).2 0 0 []
       else
        scanUnitGo t.length (scanToken (c :: t)).2
          (0 ||| isa2hwcap (hd0 (scanToken (c :: t)).1.name))
          (0 ||| (if (scanToken (c :: t)).1.ext_long then 0
                  else 2 ^ ((hd0 (scanToken (c :: t)).1.name).toNat - 97)))
          ([] ++ watchHits (scanToken (c :: t)).1.name)) := rfl
  by_cases he : (scanToken (c :: t)).1.ext_err
  · rw [base, if_pos he, if_pos he, scanUnitGo_fuel t.length _ _ _ _ hrest]
    rfl
  · rw [base, if_neg he, if_neg he,
      scanUnitGo_fuel t.length _ _ _ _ hrest, scanUnitGo_acc]
    simp [hd0_scanToken_name, scanUnit]

theorem tokensGo_fuel :
    ∀ (f : Nat) (l : List Char),
      l.length ≤ f → tokensGo f l = tokensGo l.length l := by
  intro f
  induction f using Nat.strong_induction_on with
  | _ f IH =>
    intro l hle
    match f, l with
    | _, [] => simp [tokensGo]
    | 0, c :: t => simp at hle
    | f + 1, c :: t =>
      have hlen : t.length ≤ f := by simpa using hle
      have hrest : ((scanToken (c :: t)).2).length ≤ t.length :=
        scanToken_rest_le c t
      show (scanToken (c :: t)).1 :: tokensGo f (scanToken (c :: t)).2 =
        (scanToken (c :: t)).1 :: tokensGo t.length (scanToken (c :: t)).2
      rw [IH f (Nat.lt_succ_self f) _ (hrest.trans hlen),
        IH t.length (Nat.lt_succ_of_le hlen) _ hrest]

theorem tokenList_cons (c : Char) (t : List Char) :
    tokenList (c :: t) =
      (scanToken (c :: t)).1 :: tokenList (scanToken (c :: t)).2 := by
  show (scanToken (c :: t)).1 :: tokensGo t.length (scanToken (c :: t)).2 = _
  rw [tokensGo_fuel t.length _ (scanToken_rest_le c t)]
  rfl

theorem ne_zero_iff_testBit (n : Nat) :
    n ≠ 0 ↔ ∃ i, n.testBit i = true := by
  constructor
  · intro h
    by_contra hc
    push_neg at hc
    exact h (Nat.eq_of_testBit_eq fun i => by
      simpa [Nat.zero_testBit] using hc i)
  · rintro ⟨i, hi⟩ h0
    subst h0
    simp [Nat.zero_testBit] at hi

theorem and_two_pow_ne_zero_iff (n k : Nat) :
    n &&& 2 ^ k ≠ 0 ↔ n.testBit k = true := by
  rw [ne_zero_iff_testBit]
  constructor
  · rintro ⟨i, hi⟩
    rw [Nat.testBit_and, Nat.testBit_two_pow] at hi
    rcases (Bool.and_eq_true _ _).mp hi with ⟨h1, h2⟩
    exact (of_decide_eq_true h2) ▸ h1
  · intro h
    exact ⟨k, by simp [Nat.testBit_and, Nat.testBit_two_pow, h]⟩

theorem and_two_pow_eq_zero_iff (n k : Nat) :
    n &&& 2 ^ k = 0 ↔ n.testBit k = false := by
  rw [← Bool.not_eq_true, ← and_two_pow_ne_zero_iff, not_not]

theorem foldStep_of_ne (r u : Nat) (h : r ≠ 0) : foldStep r u = r &&& u := by
  simp [foldStep, h]

theorem fold_absent (l : List Nat) :
    ∀ (r j : Nat), r.testBit j = false → (∀ u ∈ l, u.testBit j = false) →
      (l.foldl foldStep r).testBit j = false := by
  induction l with
  | nil => intro r j hr _; simpa using hr
  | cons u t ih =>
    intro r j hr hl
    have hstep : (foldStep r u).testBit j = false := by
      unfold foldStep
      split
      · exact hl u (List.mem_cons_self u t)
      · simp [Nat.testBit_and, hl u (List.mem_cons_self u t)]
    simpa using ih (foldStep r u) j hstep
      (fun v hv => hl v (List.mem_cons_of_mem u hv))

theorem fold_present (l : List Nat) :
    ∀ (r j : Nat), r.testBit j = true → (∀ u ∈ l, u.testBit j = true) →
      (l.foldl foldStep r).testBit j = true := by
  induction l with
  | nil => intro r j hr _; simpa using hr
  | cons u t ih =>
    intro r j hr hl
    have hstep : (foldStep r u).testBit j = true := by
      unfold foldStep
      split
      · exact hl u (List.mem_cons_self u t)
      · simp [Nat.testBit_and, hl u (List.mem_cons_self u t), hr]
    simpa using ih (foldStep r u) j hstep
      (fun v hv => hl v (List.mem_cons_of_mem u hv))

theorem fold_exact (l : List Nat) :
    ∀ (r k : Nat), r.testBit k = true → (∀ u ∈ l, u.testBit k = true) →
      ∀ j, (l.foldl foldStep r).testBit j =
        (r.testBit j && l.all (fun u => u.testBit j)) := by
  induction l with
  | nil => intro r k _ _ j; simp
  | cons u t ih =>
    intro r k hr hl j
    have hrne : r ≠ 0 := (ne_zero_iff_testBit r).mpr ⟨k, hr⟩
    have hk : (r &&& u).testBit k = true := by
      simp [Nat.testBit_and, hr, hl u (List.mem_cons_self u t)]
    calc ((u :: t).foldl foldStep r).testBit j
        = (t.foldl foldStep (r &&& u)).testBit j := by
          simp [foldStep_of_ne r u hrne]
      _ = ((r &&& u).testBit j && t.all (fun v => v.testBit j)) :=
          ih (r &&& u) k hk (fun v hv => hl v (List.mem_cons_of_mem u hv)) j
      _ = (r.testBit j && (u :: t).all (fun v => v.testBit j)) := by
          simp [Nat.testBit_and, Bool.and_assoc]

theorem perm_all {α : Type} {l l' : List α} (h : l.Perm l') (p : α → Bool) :
    l.all p = l'.all p := by
  rw [Bool.eq_iff_iff]
  simp only [List.all_eq_true]
  constructor
  · intro ha x hx; exact ha x (h.mem_iff.mpr hx)
  · intro ha x hx; exact ha x (h.mem_iff.mp hx)

theorem harts_go (units : List UnitIn) :
    ∀ acc : Nat × Nat,
      units.foldl
        (fun acc u =>
          match perUnit u with
          | none => acc
          | some hi => (foldStep acc.1 hi.1, foldStep acc.2 hi.2)) acc =
      (((contribs units).map Prod.fst).foldl foldStep acc.1,
       ((contribs units).map Prod.snd).foldl foldStep acc.2) := by
  induction units with
  | nil => intro acc; simp [contribs]
  | cons u us ih =>
    intro acc
    rw [List.foldl_cons]
    cases h : perUnit u with
    | none =>
      simp only [contribs, List.filterMap_cons, h]
      exact ih acc
    | some hi =>
      simp only [contribs, List.filterMap_cons, h]
      simpa using ih (foldStep acc.1 hi.1, foldStep acc.2 hi.2)

theorem harts_spec (units : List UnitIn) :
    harts units =
      (((contribs units).map Prod.fst).foldl foldStep 0,
       ((contribs units).map Prod.snd).foldl foldStep 0) :=
  harts_go units (0, 0)

theorem fold_all (l : List Nat) (k : Nat) (hne : l ≠ [])
    (hall : l.all (fun u => u.testBit k) = true) :
    ∀ j, (l.foldl foldStep 0).testBit j = l.all (fun u => u.testBit j) := by
  match l with
  | [] => exact absurd rfl hne
  | u :: t =>
    intro j
    have h0 : (u :: t).foldl foldStep 0 = t.foldl foldStep u := by
      simp [foldStep]
    have hu : u.testBit k = true := by
      simpa using List.all_eq_true.mp hall u (List.mem_cons_self u t)
    have ht : ∀ v ∈ t, v.testBit k = true := fun v hv => by
      simpa using List.all_eq_true.mp hall v (List.mem_cons_of_mem u hv)
    rw [h0, fold_exact t u k hu ht j]
    simp

/-! ## Claims -/

/-- C4: version suffix parsing of namespaced tokens — `zba1p0` yields
major 1 and minor 0; `zba1` yields major 1 and the default minor 0;
`zba` leaves the major version at the unversioned sentinel `UINT_MAX`. -/
theorem claim_c4 :
    (scanToken ['z', 'b', 'a', '1', 'p', '0']).1.ext_major = 1 ∧
    (scanToken ['z', 'b', 'a', '1', 'p', '0']).1.ext_minor = 0 ∧
    (scanToken ['z', 'b', 'a', '1']).1.ext_major = 1 ∧
    (scanToken ['z', 'b', 'a', '1']).1.ext_minor = 0 ∧
    (scanToken ['z', 'b', 'a']).1.ext_major = UINT_MAX ∧
    (scanToken ['z', 'b', 'a', '1', 'p', '0']).1.name = ['z', 'b', 'a'] ∧
    (scanToken ['z', 'b', 'a', '1']).1.name = ['z', 'b', 'a'] ∧
    (scanToken ['z', 'b', 'a']).1.name = ['z', 'b', 'a'] := by
  decide

/-- C7: the extension-availability query returns false for every
out-of-range bit index, and for an in-range index returns exactly the
queried bit of the consulted bitmap (the given one, or the global one
when none is given). -/
theorem claim_c7 (isa_bitmap : Option Nat) (global_isa : Nat) (bit : Nat) :
    (RISCV_ISA_EXT_MAX ≤ bit →
      riscv_isa_extension_available isa_bitmap global_isa bit = false) ∧
    (bit < RISCV_ISA_EXT_MAX →
      riscv_isa_extension_available isa_bitmap global_isa bit =
        (isa_bitmap.getD global_isa).testBit bit) := by
  constructor
  · intro h
    simp [riscv_isa_extension_available, h]
  · intro h
    simp [riscv_isa_extension_available, Nat.not_le.mpr h]

/-- Witness for C7 at concrete inputs: bit 99 is out of range and the
query returns false; bit 2 is in range and the query returns the bit of
the consulted bitmap. -/
theorem claim_c7_witness :
    (RISCV_ISA_EXT_MAX ≤ 99 ∧
      riscv_isa_extension_available none 4 99 = false) ∧
    (2 < RISCV_ISA_EXT_MAX ∧
      riscv_isa_extension_available none 4 2 =
        ((none : Option Nat).getD 4).testBit 2) :=
  ⟨⟨by decide, (claim_c7 none 4 99).1 (by decide)⟩,
   ⟨by decide, (claim_c7 none 4 2).2 (by decide)⟩⟩

/-- C10: the token-scanning loop advances on every nonempty remainder —
the string left after one token is a suffix of the input lying strictly
past the token's first character, so each iteration strictly consumes at
least one character and the loop terminates. -/
theorem claim_c10 (l : List Char) (h : l ≠ []) :
    ((scanToken l).2).length < l.length ∧ (scanToken l).2 <:+ l := by
  cases l with
  | nil => exact absurd rfl h
  | cons c t =>
    exact ⟨scanToken_rest_lt c t,
      (scanToken_rest_suffix c t).trans (List.suffix_cons c t)⟩

/-- Witness for C10 at the concrete descriptor `a`. -/
theorem claim_c10_witness :
    (['a'] : List Char) ≠ [] ∧
    ((scanToken ['a']).2).length < (['a'] : List Char).length :=
  ⟨by decide, (claim_c10 ['a'] (by decide)).1⟩

/-- C2 counterexample: the token `m4294967296` has a version-number
overflow (`4294967296 > UINT_MAX`), so the claim says it contributes no
capability-mask bit and no ISA-bitmap bit; the code only records the
overflow in `ext_err_ver`, never consults that flag, and still
contributes the M capability bit and ISA bit 12. -/
theorem claim_c2_cex :
    (scanToken ['m', '4', '2', '9', '4', '9', '6', '7', '2', '9', '6']).1.ext_err_ver
        = true ∧
    (scanToken ['m', '4', '2', '9', '4', '9', '6', '7', '2', '9', '6']).1.ext_err
        = false ∧
    (scanUnit ['m', '4', '2', '9', '4', '9', '6', '7', '2', '9', '6']).1 =
      COMPAT_HWCAP_ISA_M ∧
    (scanUnit ['m', '4', '2', '9', '4', '9', '6', '7', '2', '9', '6']).2.1 =
      2 ^ 12 := by
  decide

/-- C2 amended: a token malformed by a bad character (`ext_err`)
contributes no bits and scanning resumes on the remainder; a token whose
version fails to parse only sets `ext_err_ver`, which is never
consulted, so the token still contributes its capability bit; in every
case the token is consumed (the remainder is strictly shorter). -/
theorem claim_c2_amended (c : Char) (t : List Char) :
    ((scanToken (c :: t)).1.ext_err = true →
      scanUnit (c :: t) = scanUnit (scanToken (c :: t)).2) ∧
    ((scanToken (c :: t)).1.ext_err = false →
      (scanUnit (c :: t)).1 =
        isa2hwcap c ||| (scanUnit (scanToken (c :: t)).2).1) ∧
    ((scanToken (c :: t)).2).length < (c :: t).length := by
  refine ⟨?_, ?_, scanToken_rest_lt c t⟩
  · intro he
    rw [scanUnit_cons, if_pos he]
  · intro he
    rw [scanUnit_cons, if_neg (by simp [he])]

/-- Witness for C2 amended at the overflowing token `m4294967296`: the
token is not `ext_err`, and its capability bit is still contributed. -/
theorem claim_c2_amended_witness :
    (scanToken ('m' :: ['4', '2', '9', '4', '9', '6', '7', '2', '9', '6'])).1.ext_err
        = false ∧
    (scanUnit ('m' :: ['4', '2', '9', '4', '9', '6', '7', '2', '9', '6'])).1 =
      isa2hwcap 'm' |||
        (scanUnit
          (scanToken ('m' :: ['4', '2', '9', '4', '9', '6', '7', '2', '9', '6'])).2).1 :=
  ⟨by decide, (claim_c2_amended 'm' _).2.1 (by decide)⟩

/-- C3 counterexample: the claim says the uppercase letter `I`, parsed
as a single-letter token, sets the I capability bit; the code's
`islower` test flags every uppercase token `ext_err`, so `I` contributes
nothing even though the `isa2hwcap` table maps it. -/
theorem claim_c3_cex :
    isa2hwcap 'I' = COMPAT_HWCAP_ISA_I ∧
    (scanToken ['I']).1.ext_err = true ∧
    (scanUnit ['I']).1 = 0 ∧
    (scanUnit ['I']).1.testBit 8 = false := by
  decide

/-- C6 counterexample: the claim says a second occurrence of the same
watch-listed name in one run emits no further diagnostic; the code
re-tests every token, so the run `zba_zba` emits the `zba` diagnostic
twice. -/
theorem claim_c6_cex :
    (scanUnit ['z', 'b', 'a', '_', 'z', 'b', 'a']).2.2 =
      [['z', 'b', 'a'], ['z', 'b', 'a']] ∧
    ((scanUnit ['z', 'b', 'a', '_', 'z', 'b', 'a']).2.2).count ['z', 'b', 'a']
      = 2 := by
  decide

/-- C8 counterexample: the claim quantifies over every sequence of
single-letter tokens, including versioned ones; for the sequence
`i1`, `p2` the delimited form `i1_p2` parses `p` as its own extension
(ISA bit 15), while the undelimited form `i1p2` absorbs `p2` as the
minor version of `i1`, so the parsed ISA bitmaps differ. -/
theorem claim_c8_cex :
    (scanUnit ['i', '1', 'p', '2']).2.1 = 2 ^ 8 ∧
    (scanUnit ['i', '1', '_', 'p', '2']).2.1 = 2 ^ 8 ||| 2 ^ 15 ∧
    (scanUnit ['i', '1', 'p', '2']).2.1 ≠
      (scanUnit ['i', '1', '_', 'p', '2']).2.1 ∧
    (scanToken ['i', '1', 'p', '2']).1.ext_minor = 2 ∧
    (scanToken ['i', '1', '_', 'p', '2']).1.ext_minor = 0 := by
  decide

theorem all_map_fst (L : List (Nat × Nat)) (p : Nat → Bool) :
    (L.map Prod.fst).all p = L.all (fun q => p q.1) := by
  induction L with
  | nil => rfl
  | cons q L ih => simp [ih]

theorem all_map_snd (L : List (Nat × Nat)) (p : Nat → Bool) :
    (L.map Prod.snd).all p = L.all (fun q => p q.2) := by
  induction L with
  | nil => rfl
  | cons q L ih => simp [ih]

/-- C1 counterexample: the hart fold reinitialises a zero running value
from the next unit instead of intersecting, so aggregation is not the
bitwise intersection and not permutation-invariant.  With units `i` and
`b` (the unit `b` contributes an empty capability mask), the two orders
freeze different masks, and in the order `b`, `i` the frozen mask
carries bit 8 even though unit `b` did not set it. -/
theorem claim_c1_cex :
    ([UnitIn.mk true (some ['i']), UnitIn.mk true (some ['b'])]).Perm
      [UnitIn.mk true (some ['b']), UnitIn.mk true (some ['i'])] ∧
    (riscv_fill_hwcap
        [UnitIn.mk true (some ['i']), UnitIn.mk true (some ['b'])]).elf_hwcap ≠
      (riscv_fill_hwcap
        [UnitIn.mk true (some ['b']), UnitIn.mk true (some ['i'])]).elf_hwcap ∧
    (riscv_fill_hwcap
        [UnitIn.mk true (some ['b']),
         UnitIn.mk true (some ['i'])]).elf_hwcap.testBit 8 = true ∧
    (scanUnit ['b']).1.testBit 8 = false := by
  refine ⟨List.Perm.swap _ _ _, by decide, by decide, by decide⟩

/-- C1 amended: the fold step is `running = 0 ? unit : running AND
unit`; whenever some bit is set in every contributing unit's mask
(resp. bitmap) — the intersection is nonzero — no intermediate running
value is zero, so the aggregated mask (resp. bitmap) is exactly the
bitwise intersection of the contributing units' values, and under that
hypothesis any permutation of the unit list freezes the same values.
When the intersection is zero the reinitialisation step can make the
result depend on unit order (see the counterexample). -/
theorem claim_c1_amended (units units' : List UnitIn)
    (hperm : units.Perm units')
    (hne : contribs units ≠ [])
    (hhw : ∃ k, (contribs units).all (fun p => p.1.testBit k) = true)
    (hisa : ∃ k, (contribs units).all (fun p => p.2.testBit k) = true) :
    (∀ j, (harts units).1.testBit j =
      (contribs units).all (fun p => p.1.testBit j)) ∧
    (∀ j, (harts units).2.testBit j =
      (contribs units).all (fun p => p.2.testBit j)) ∧
    harts units' = harts units := by
  obtain ⟨k1, hk1⟩ := hhw
  obtain ⟨k2, hk2⟩ := hisa
  have hpermC : (contribs units).Perm (contribs units') := hperm.filterMap perUnit
  have hne' : contribs units' ≠ [] := fun h => hne (List.Perm.eq_nil (h ▸ hpermC))
  have hk1' : (contribs units').all (fun p => p.1.testBit k1) = true := by
    rw [← perm_all hpermC]; exact hk1
  have hk2' : (contribs units').all (fun p => p.2.testBit k2) = true := by
    rw [← perm_all hpermC]; exact hk2
  have hmapne : ∀ (v : List UnitIn), contribs v ≠ [] →
      ∀ (f : Nat × Nat → Nat), (contribs v).map f ≠ [] := by
    intro v hv f h
    exact hv (List.map_eq_nil_iff.mp h)
  have hfst : ∀ (v : List UnitIn), contribs v ≠ [] →
      (contribs v).all (fun p => p.1.testBit k1) = true →
      ∀ j, (harts v).1.testBit j = (contribs v).all (fun p => p.1.testBit j) := by
    intro v hv hall j
    rw [harts_spec]
    have := fold_all ((contribs v).map Prod.fst) k1 (hmapne v hv _)
      (by rw [all_map_fst]; exact hall) j
    rw [all_map_fst] at this
    exact this
  have hsnd : ∀ (v : List UnitIn), contribs v ≠ [] →
      (contribs v).all (fun p => p.2.testBit k2) = true →
      ∀ j, (harts v).2.testBit j = (contribs v).all (fun p => p.2.testBit j) := by
    intro v hv hall j
    rw [harts_spec]
    have := fold_all ((contribs v).map Prod.snd) k2 (hmapne v hv _)
      (by rw [all_map_snd]; exact hall) j
    rw [all_map_snd] at this
    exact this
  refine ⟨hfst units hne hk1, hsnd units hne hk2, ?_⟩
  have e1 : (harts units').1 = (harts units).1 :=
    Nat.eq_of_testBit_eq fun j => by
      rw [hfst units' hne' hk1' j, hfst units hne hk1 j, perm_all hpermC]
  have e2 : (harts units').2 = (harts units).2 :=
    Nat.eq_of_testBit_eq fun j => by
      rw [hsnd units' hne' hk2' j, hsnd units hne hk2 j, perm_all hpermC]
  calc harts units' = ((harts units').1, (harts units').2) := rfl
    _ = ((harts units).1, (harts units).2) := by rw [e1, e2]
    _ = harts units := rfl

/-- Witness for C1 amended on the single unit `i` (its mask and bitmap
both carry bit 8, so both intersections are nonzero). -/
theorem claim_c1_amended_witness :
    contribs [UnitIn.mk true (some ['i'])] ≠ [] ∧
    (contribs [UnitIn.mk true (some ['i'])]).all
      (fun p => p.1.testBit 8) = true ∧
    (contribs [UnitIn.mk true (some ['i'])]).all
      (fun p => p.2.testBit 8) = true ∧
    (harts [UnitIn.mk true (some ['i'])]).1.testBit 8 =
      (contribs [UnitIn.mk true (some ['i'])]).all (fun p => p.1.testBit 8) :=
  ⟨by decide, by decide, by decide,
   (claim_c1_amended _ _ (List.Perm.refl _) (by decide)
      ⟨8, by decide⟩ ⟨8, by decide⟩).1 8⟩

theorem isa2hwcap_ne_zero_cases (ch : Char) (h : isa2hwcap ch ≠ 0) :
    ch ∈ (['i', 'm', 'a', 'f', 'd', 'c'] : List Char) ∨
      ch ∈ (['I', 'M', 'A', 'F', 'D', 'C'] : List Char) := by
  unfold isa2hwcap at h
  split_ifs at h with h1 h2 h3 h4 h5 h6
  · rcases h1 with rfl | rfl
    · exact Or.inl (by decide)
    · exact Or.inr (by decide)
  · rcases h2 with rfl | rfl
    · exact Or.inl (by decide)
    · exact Or.inr (by decide)
  · rcases h3 with rfl | rfl
    · exact Or.inl (by decide)
    · exact Or.inr (by decide)
  · rcases h4 with rfl | rfl
    · exact Or.inl (by decide)
    · exact Or.inr (by decide)
  · rcases h5 with rfl | rfl
    · exact Or.inl (by decide)
    · exact Or.inr (by decide)
  · rcases h6 with rfl | rfl
    · exact Or.inl (by decide)
    · exact Or.inr (by decide)
  · exact absurd rfl h

theorem isa2hwcap_testBit (ch : Char) (j : Nat)
    (h : (isa2hwcap ch).testBit j = true) :
    j = 0 ∨ j = 2 ∨ j = 3 ∨ j = 5 ∨ j = 8 ∨ j = 12 := by
  unfold isa2hwcap at h
  split_ifs at h
  · simp only [COMPAT_HWCAP_ISA_I, Nat.testBit_two_pow, decide_eq_true_eq] at h
    omega
  · simp only [COMPAT_HWCAP_ISA_M, Nat.testBit_two_pow, decide_eq_true_eq] at h
    omega
  · simp only [COMPAT_HWCAP_ISA_A, Nat.testBit_two_pow, decide_eq_true_eq] at h
    omega
  · simp only [COMPAT_HWCAP_ISA_F, Nat.testBit_two_pow, decide_eq_true_eq] at h
    omega
  · simp only [COMPAT_HWCAP_ISA_D, Nat.testBit_two_pow, decide_eq_true_eq] at h
    omega
  · simp only [COMPAT_HWCAP_ISA_C, Nat.testBit_two_pow, decide_eq_true_eq] at h
    omega
  · simp [Nat.zero_testBit] at h

theorem scanUnit_hw_bits :
    ∀ (n : Nat) (l : List Char), l.length ≤ n → ∀ j,
      ((scanUnit l).1).testBit j = true →
      j = 0 ∨ j = 2 ∨ j = 3 ∨ j = 5 ∨ j = 8 ∨ j = 12 := by
  intro n
  induction n with
  | zero =>
    intro l hl j hj
    have hnil : l = [] := List.length_eq_zero.mp (Nat.le_zero.mp hl)
    subst hnil
    simp [scanUnit, scanUnitGo, Nat.zero_testBit] at hj
  | succ n ih =>
    intro l hl j hj
    cases l with
    | nil => simp [scanUnit, scanUnitGo, Nat.zero_testBit] at hj
    | cons c t =>
      have hle : ((scanToken (c :: t)).2).length ≤ n :=
        (scanToken_rest_le c t).trans (by simpa using hl)
      rw [scanUnit_cons] at hj
      by_cases he : (scanToken (c :: t)).1.ext_err
      · rw [if_pos he] at hj
        exact ih _ hle j hj
      · rw [if_neg he] at hj
        dsimp only at hj
        rw [Nat.testBit_or] at hj
        rcases (Bool.or_eq_true _ _).mp hj with h | h
        · exact isa2hwcap_testBit c j h
        · exact ih _ hle j h

/-- C3 amended: the six legacy base letters are accepted in lowercase
only — each lowercase letter sets exactly its mapped, nonzero
capability-mask bit, while the uppercase forms are rejected as malformed
tokens and set nothing (the uppercase `isa2hwcap` entries are
unreachable); the table maps no character outside the twelve entries,
and no parse ever sets a capability-mask bit outside the six legacy
positions {0, 2, 3, 5, 8, 12}. -/
theorem claim_c3_amended :
    (∀ c ∈ (['i', 'm', 'a', 'f', 'd', 'c'] : List Char),
      (scanUnit [c]).1 = isa2hwcap c ∧ isa2hwcap c ≠ 0) ∧
    (∀ c ∈ (['I', 'M', 'A', 'F', 'D', 'C'] : List Char),
      (scanUnit [c]).1 = 0) ∧
    (∀ ch : Char, isa2hwcap ch ≠ 0 →
      ch ∈ (['i', 'm', 'a', 'f', 'd', 'c'] : List Char) ∨
        ch ∈ (['I', 'M', 'A', 'F', 'D', 'C'] : List Char)) ∧
    (∀ (l : List Char) (j : Nat), ((scanUnit l).1).testBit j = true →
      j = 0 ∨ j = 2 ∨ j = 3 ∨ j = 5 ∨ j = 8 ∨ j = 12) := by
  refine ⟨by decide, by decide, isa2hwcap_ne_zero_cases, ?_⟩
  intro l j hj
  exact scanUnit_hw_bits l.length l (Nat.le_refl _) j hj

/-- Witness for C3 amended: lowercase `i` sets its mapped bit, uppercase
`I` sets nothing. -/
theorem claim_c3_amended_witness :
    ('i' ∈ (['i', 'm', 'a', 'f', 'd', 'c'] : List Char)) ∧
    (scanUnit ['i']).1 = isa2hwcap 'i' ∧
    ('I' ∈ (['I', 'M', 'A', 'F', 'D', 'C'] : List Char)) ∧
    (scanUnit ['I']).1 = 0 :=
  ⟨by decide, (claim_c3_amended.1 'i' (by decide)).1, by decide,
   claim_c3_amended.2.1 'I' (by decide)⟩

theorem bne_zero_and_two_pow (n k : Nat) :
    (n &&& 2 ^ k != 0) = n.testBit k := by
  cases h : n.testBit k with
  | false =>
    have h0 : n &&& 2 ^ k = 0 := (and_two_pow_eq_zero_iff n k).mpr h
    simp [h0]
  | true =>
    have h0 : n &&& 2 ^ k ≠ 0 := (and_two_pow_ne_zero_iff n k).mpr h
    simp [h0]

theorem beq_zero_and_two_pow (n k : Nat) :
    (n &&& 2 ^ k == 0) = !n.testBit k := by
  cases h : n.testBit k with
  | false =>
    have h0 : n &&& 2 ^ k = 0 := (and_two_pow_eq_zero_iff n k).mpr h
    simp [h0]
  | true =>
    have h0 : n &&& 2 ^ k ≠ 0 := (and_two_pow_ne_zero_iff n k).mpr h
    simp [h0]

theorem fill_elf (units : List UnitIn) :
    (riscv_fill_hwcap units).elf_hwcap =
      if ((harts units).1.testBit 5 && !(harts units).1.testBit 3) then
        (harts units).1 &&& NOT_HWCAP_F
      else (harts units).1 := by
  show (if ((harts units).1 &&& COMPAT_HWCAP_ISA_F != 0) &&
           ((harts units).1 &&& COMPAT_HWCAP_ISA_D == 0) then
          (harts units).1 &&& NOT_HWCAP_F
        else (harts units).1) = _
  rw [show COMPAT_HWCAP_ISA_F = 2 ^ 5 from rfl,
    show COMPAT_HWCAP_ISA_D = 2 ^ 3 from rfl,
    bne_zero_and_two_pow, beq_zero_and_two_pow]

theorem testBit_forty (i : Nat) (h : (40 : Nat).testBit i = true) :
    i = 3 ∨ i = 5 := by
  by_cases hi : i < 6
  · interval_cases i <;> revert h <;> decide
  · exfalso
    have hlt : (40 : Nat) < 2 ^ i := by
      calc (40 : Nat) < 2 ^ 6 := by decide
        _ ≤ 2 ^ i := Nat.pow_le_pow_right (by decide) (Nat.le_of_not_lt hi)
    rw [Nat.testBit_lt_two_pow hlt] at h
    exact Bool.false_ne_true h

theorem and_fd_bne_zero (n : Nat) :
    (n &&& (COMPAT_HWCAP_ISA_F ||| COMPAT_HWCAP_ISA_D) != 0) =
      (n.testBit 5 || n.testBit 3) := by
  rw [show COMPAT_HWCAP_ISA_F ||| COMPAT_HWCAP_ISA_D = 40 from rfl,
    Bool.eq_iff_iff]
  constructor
  · intro h
    have hne : n &&& 40 ≠ 0 := bne_iff_ne.mp h
    rcases (ne_zero_iff_testBit _).mp hne with ⟨i, hi⟩
    rw [Nat.testBit_and] at hi
    rcases (Bool.and_eq_true _ _).mp hi with ⟨h1, h2⟩
    rcases testBit_forty i h2 with rfl | rfl
    · simp [h1]
    · simp [h1]
  · intro h
    apply bne_iff_ne.mpr
    apply (ne_zero_iff_testBit _).mpr
    rcases (Bool.or_eq_true _ _).mp h with h5 | h3
    · exact ⟨5, by rw [Nat.testBit_and, h5]; decide⟩
    · exact ⟨3, by rw [Nat.testBit_and, h3]; decide⟩

theorem fill_gate (units : List UnitIn) :
    (riscv_fill_hwcap units).fpuGate =
      ((riscv_fill_hwcap units).elf_hwcap.testBit 5 ||
       (riscv_fill_hwcap units).elf_hwcap.testBit 3) := by
  rw [show (riscv_fill_hwcap units).fpuGate =
      ((riscv_fill_hwcap units).elf_hwcap &&&
        (COMPAT_HWCAP_ISA_F ||| COMPAT_HWCAP_ISA_D) != 0) from rfl,
    and_fd_bne_zero]

/-- C5: the frozen mask never carries the single-precision float bit
(bit 5) without the double-precision bit (bit 3); the FPU gate is
enabled exactly when a float bit survives the rule; if every
contributing unit reports F without D the frozen mask lacks F and the
gate is off; if there is at least one contributing unit and all of them
report both F and D, the frozen mask carries both and the gate is on. -/
theorem claim_c5 (units : List UnitIn) :
    ((riscv_fill_hwcap units).elf_hwcap.testBit 5 = true →
      (riscv_fill_hwcap units).elf_hwcap.testBit 3 = true) ∧
    ((riscv_fill_hwcap units).fpuGate =
      ((riscv_fill_hwcap units).elf_hwcap.testBit 5 ||
       (riscv_fill_hwcap units).elf_hwcap.testBit 3)) ∧
    ((∀ p ∈ contribs units, p.1.testBit 5 = true ∧ p.1.testBit 3 = false) →
      (riscv_fill_hwcap units).elf_hwcap.testBit 5 = false ∧
      (riscv_fill_hwcap units).fpuGate = false) ∧
    (contribs units ≠ [] →
      (∀ p ∈ contribs units, p.1.testBit 5 = true ∧ p.1.testBit 3 = true) →
      (riscv_fill_hwcap units).elf_hwcap.testBit 5 = true ∧
      (riscv_fill_hwcap units).elf_hwcap.testBit 3 = true ∧
      (riscv_fill_hwcap units).fpuGate = true) := by
  have hgate := fill_gate units
  have hnotf5 : NOT_HWCAP_F.testBit 5 = false := by decide
  refine ⟨?_, hgate, ?_, ?_⟩
  · intro h5
    rw [fill_elf] at h5 ⊢
    by_cases hc : ((harts units).1.testBit 5 && !(harts units).1.testBit 3) = true
    · rw [if_pos hc] at h5
      rw [Nat.testBit_and, hnotf5] at h5
      simp at h5
    · rw [if_neg hc] at h5 ⊢
      simp [h5] at hc
      simpa using hc
  · intro hp
    have hmap3 : ∀ u ∈ (contribs units).map Prod.fst, u.testBit 3 = false := by
      intro u hu
      rcases List.mem_map.mp hu with ⟨p, hpmem, rfl⟩
      exact (hp p hpmem).2
    have hagg3 : (harts units).1.testBit 3 = false := by
      rw [harts_spec]
      exact fold_absent _ 0 3 (Nat.zero_testBit 3) hmap3
    have helf3 : (riscv_fill_hwcap units).elf_hwcap.testBit 3 = false := by
      rw [fill_elf]
      split
      · rw [Nat.testBit_and]
        simp [hagg3]
      · exact hagg3
    have helf5 : (riscv_fill_hwcap units).elf_hwcap.testBit 5 = false := by
      rw [fill_elf]
      by_cases h5 : (harts units).1.testBit 5 = true
      · rw [if_pos (by simp [h5, hagg3])]
        rw [Nat.testBit_and, hnotf5]
        simp
      · rw [if_neg (by simp [hagg3]; simpa using h5)]
        simpa using h5
    exact ⟨helf5, by rw [hgate, helf5, helf3]; rfl⟩
  · intro hne hp
    have hmapne : (contribs units).map Prod.fst ≠ [] := by
      simpa using hne
    have hall5 : ((contribs units).map Prod.fst).all (fun u => u.testBit 5) = true := by
      rw [List.all_eq_true]
      intro u hu
      rcases List.mem_map.mp hu with ⟨p, hpmem, rfl⟩
      simpa using (hp p hpmem).1
    have hall3 : ((contribs units).map Prod.fst).all (fun u => u.testBit 3) = true := by
      rw [List.all_eq_true]
      intro u hu
      rcases List.mem_map.mp hu with ⟨p, hpmem, rfl⟩
      simpa using (hp p hpmem).2
    have hfold := fold_all ((contribs units).map Prod.fst) 5 hmapne hall5
    have hagg5 : (harts units).1.testBit 5 = true := by
      rw [harts_spec]
      show (((contribs units).map Prod.fst).foldl foldStep 0).testBit 5 = true
      rw [hfold 5]
      exact hall5
    have hagg3 : (harts units).1.testBit 3 = true := by
      rw [harts_spec]
      show (((contribs units).map Prod.fst).foldl foldStep 0).testBit 3 = true
      rw [hfold 3]
      exact hall3
    have helf : (riscv_fill_hwcap units).elf_hwcap = (harts units).1 := by
      rw [fill_elf, if_neg (by simp [hagg3])]
    refine ⟨by rw [helf]; exact hagg5, by rw [helf]; exact hagg3, ?_⟩
    rw [hgate, helf, hagg5]
    simp

/-- Witness for C5 on the single unit `fd`: both float bits are
reported, the frozen mask keeps both, and the gate is enabled. -/
theorem claim_c5_witness :
    contribs [UnitIn.mk true (some ['f', 'd'])] ≠ [] ∧
    (∀ p ∈ contribs [UnitIn.mk true (some ['f', 'd'])],
      p.1.testBit 5 = true ∧ p.1.testBit 3 = true) ∧
    ((riscv_fill_hwcap [UnitIn.mk true (some ['f', 'd'])]).elf_hwcap.testBit 5
        = true ∧
     (riscv_fill_hwcap [UnitIn.mk true (some ['f', 'd'])]).elf_hwcap.testBit 3
        = true ∧
     (riscv_fill_hwcap [UnitIn.mk true (some ['f', 'd'])]).fpuGate = true) :=
  ⟨by decide, by decide, (claim_c5 _).2.2.2 (by decide) (by decide)⟩

/-- C6 amended: the watch-list diagnostics of one parse run are exactly
one diagnostic per well-formed token occurrence whose canonical name is
on the watch-list, with no first-seen deduplication; both namespaced and
single-letter names are eligible (the list holds `h`, `zba`,
`zihintpause`, `zksed`), and a watch-listed name triggers exactly its
one matching entry. -/
theorem claim_c6_amended (l : List Char) :
    (scanUnit l).2.2 =
      ((tokenList l).filter (fun tk => !tk.ext_err)).flatMap
        (fun tk => watchHits tk.name) ∧
    (∀ nm, nm ∈ watchList → watchHits nm = [nm]) := by
  constructor
  · suffices h : ∀ (n : Nat) (l : List Char), l.length ≤ n →
        (scanUnit l).2.2 =
          ((tokenList l).filter (fun tk => !tk.ext_err)).flatMap
            (fun tk => watchHits tk.name) from h l.length l (Nat.le_refl _)
    intro n
    induction n with
    | zero =>
      intro l hl
      have hnil : l = [] := List.length_eq_zero.mp (Nat.le_zero.mp hl)
      subst hnil
      rfl
    | succ n ih =>
      intro l hl
      cases l with
      | nil => rfl
      | cons c t =>
        have hle : ((scanToken (c :: t)).2).length ≤ n :=
          (scanToken_rest_le c t).trans (by simpa using hl)
        rw [scanUnit_cons, tokenList_cons]
        by_cases he : (scanToken (c :: t)).1.ext_err
        · rw [if_pos he, ih _ hle]
          simp [he]
        · rw [if_neg he]
          show watchHits (scanToken (c :: t)).1.name ++
              (scanUnit (scanToken (c :: t)).2).2.2 = _
          rw [ih _ hle]
          simp [he]
  · intro nm hnm
    fin_cases hnm <;> decide

/-- Witness for C6 amended: `zba` is on the watch-list and triggers
exactly its own single diagnostic entry. -/
theorem claim_c6_amended_witness :
    (['z', 'b', 'a'] ∈ watchList) ∧
    watchHits ['z', 'b', 'a'] = [['z', 'b', 'a']] :=
  ⟨by decide, (claim_c6_amended []).2 ['z', 'b', 'a'] (by decide)⟩

theorem lower_not_digit (c : Char) (h : isLowerC c = true) :
    isDigitC c = false := by
  simp only [isLowerC, Bool.and_eq_true, decide_eq_true_eq] at h
  simp only [isDigitC, Bool.and_eq_false_iff, decide_eq_false_iff_not]
  omega

theorem lower_ne_underscore (c : Char) (h : isLowerC c = true) :
    ¬(c = '_') := by
  rintro rfl
  exact absurd h (by decide)

theorem delimAdjust_letters (t : List Char)
    (h : ∀ c ∈ t, isLowerC c = true) : delimAdjust t = t := by
  cases t with
  | nil => rfl
  | cons a r =>
    have ha := h a (List.mem_cons_self a r)
    simp [delimAdjust, lower_ne_underscore a ha]

theorem scanToken_letter (c : Char) (t : List Char)
    (h1 : isLowerC c = true) (hs : c ≠ 's') (hx : c ≠ 'x') (hz : c ≠ 'z')
    (ht : isDigitC (hd0 t) = false) :
    scanToken (c :: t) =
      (⟨[c], UINT_MAX, 0, false, false, false⟩, delimAdjust t) := by
  have hcond : ¬((c == 's' || c == 'x' || c == 'z') = true) := by
    simp [hs, hx, hz]
  show (if c == 's' || c == 'x' || c == 'z' then
          scanLong c t else scanShort c t) = _
  rw [if_neg hcond]
  unfold scanShort
  rw [if_neg (show ¬(isLowerC c = false) by simp [h1]), if_pos ht]

/-- C8 amended: for sequences of unversioned single-letter extension
tokens (lowercase letters outside the namespace prefixes `s`, `x`, `z`)
the delimited and undelimited writings parse identically — mask, ISA
bitmap and diagnostics alike.  A versioned single-letter token followed
undelimited by a token starting with `p` or a digit can absorb it as
version text, so the equivalence does not extend to versioned tokens
(see the counterexample). -/
theorem claim_c8_amended (l : List Char)
    (h : ∀ c ∈ l, isLowerC c = true ∧ c ≠ 's' ∧ c ≠ 'x' ∧ c ≠ 'z') :
    scanUnit (List.intersperse '_' l) = scanUnit l := by
  induction l with
  | nil => rfl
  | cons c t ih =>
    obtain ⟨h1, hs, hx, hz⟩ := h c (List.mem_cons_self c t)
    have hrec : ∀ c' ∈ t, isLowerC c' = true ∧ c' ≠ 's' ∧ c' ≠ 'x' ∧ c' ≠ 'z' :=
      fun c' hc' => h c' (List.mem_cons_of_mem c hc')
    cases t with
    | nil => rfl
    | cons d t2 =>
      have hd1 : isLowerC d = true := (hrec d (List.mem_cons_self d t2)).1
      have tok1 : scanToken (c :: d :: t2) =
          (⟨[c], UINT_MAX, 0, false, false, false⟩, delimAdjust (d :: t2)) :=
        scanToken_letter c (d :: t2) h1 hs hx hz (lower_not_digit d hd1)
      have hda : delimAdjust (d :: t2) = d :: t2 :=
        delimAdjust_letters _ (fun c' hc' => (hrec c' hc').1)
      have tok2 : scanToken (c :: '_' :: List.intersperse '_' (d :: t2)) =
          (⟨[c], UINT_MAX, 0, false, false, false⟩,
            delimAdjust ('_' :: List.intersperse '_' (d :: t2))) :=
        scanToken_letter c _ h1 hs hx hz rfl
      have hda2 : delimAdjust ('_' :: List.intersperse '_' (d :: t2)) =
          List.intersperse '_' (d :: t2) := by
        simp [delimAdjust]
      show scanUnit (c :: '_' :: List.intersperse '_' (d :: t2)) = _
      rw [scanUnit_cons c ('_' :: List.intersperse '_' (d :: t2)),
        scanUnit_cons c (d :: t2), tok1, tok2]
      simp [hda, hda2, ih hrec]

/-- Witness for C8 amended at the concrete letter sequence `i`, `m`. -/
theorem claim_c8_amended_witness :
    (∀ c ∈ (['i', 'm'] : List Char),
      isLowerC c = true ∧ c ≠ 's' ∧ c ≠ 'x' ∧ c ≠ 'z') ∧
    scanUnit (List.intersperse '_' ['i', 'm']) = scanUnit ['i', 'm'] :=
  ⟨by decide, claim_c8_amended ['i', 'm'] (by decide)⟩

theorem letters_lt :
    ∀ i, i < 26 → ∀ j, j < 26 → i < j →
      Char.ofNat (97 + i) < Char.ofNat (97 + j) := by
  decide

/-- C9: the presenter renders any bitmap's 26 single-letter slots as the
strictly ascending string of exactly the lowercase letters whose bit is
set; for the single descriptor `rv64imac` the frozen ISA bitmap holds
exactly the letters a, c, i, m, the capability mask carries the
I, M, A, C bits only (no F, no D), and the presenter renders `acim`. -/
theorem claim_c9 :
    (∀ bm : Nat,
      List.Pairwise (fun a b => a < b) (printStr bm) ∧
      (∀ ch : Char, ch ∈ printStr bm ↔
        ∃ i : Nat, i < 26 ∧ bm.testBit i = true ∧ ch = Char.ofNat (97 + i))) ∧
    (riscv_fill_hwcap [UnitIn.mk true (some "rv64imac".toList)]).riscv_isa =
      2 ^ 0 + 2 ^ 2 + 2 ^ 8 + 2 ^ 12 ∧
    (riscv_fill_hwcap [UnitIn.mk true (some "rv64imac".toList)]).elf_hwcap =
      COMPAT_HWCAP_ISA_A ||| COMPAT_HWCAP_ISA_C |||
        COMPAT_HWCAP_ISA_I ||| COMPAT_HWCAP_ISA_M ∧
    (riscv_fill_hwcap
      [UnitIn.mk true (some "rv64imac".toList)]).elf_hwcap.testBit 5 = false ∧
    (riscv_fill_hwcap
      [UnitIn.mk true (some "rv64imac".toList)]).elf_hwcap.testBit 3 = false ∧
    printStr
      (riscv_fill_hwcap [UnitIn.mk true (some "rv64imac".toList)]).riscv_isa =
      ['a', 'c', 'i', 'm'] := by
  refine ⟨?_, by decide, by decide, by decide, by decide, by decide⟩
  intro bm
  constructor
  · have hr : List.Pairwise (fun a b => a < b) (List.range 26) :=
      List.pairwise_lt_range 26
    have hf : List.Pairwise (fun a b => a < b)
        ((List.range 26).filter (fun i => bm.testBit i)) := hr.filter _
    unfold printStr
    rw [List.pairwise_map]
    refine hf.imp_of_mem ?_
    intro a b ha hb hab
    have ha26 : a < 26 := List.mem_range.mp (List.mem_filter.mp ha).1
    have hb26 : b < 26 := List.mem_range.mp (List.mem_filter.mp hb).1
    exact letters_lt a ha26 b hb26 hab
  · intro ch
    unfold printStr
    simp only [List.mem_map, List.mem_filter, List.mem_range]
    constructor
    · rintro ⟨i, ⟨hi26, hbit⟩, rfl⟩
      exact ⟨i, hi26, hbit, rfl⟩
    · rintro ⟨i, hi26, hbit, rfl⟩
      exact ⟨i, ⟨hi26, hbit⟩, rfl⟩
